import Mathlib

/-!
# pokecache: a creation-time TTL cache

Shallow embedding of `pokecache/pokecache.go` (type `Cache` with `Add`, `Get`,
`reapLoop`, `NewCache`) and the properties of it that the specification states.

Modelling conventions
* `time.Time` values are instants on one clock, an `Int` count of nanoseconds;
  `time.Now()` is an explicit argument of the operation that reads the clock.
  Both `time.Now()` and the ticks of a `time.Ticker` carry a monotonic reading,
  so `After` compares them on that one clock.
* `[]byte` is `Option (List UInt8)`, `none` being the `nil` slice.
* `map[string]cacheEntry` is a finite map with unique keys and no order
  (`Finmap`), as a Go map is.
* The mutex is not modelled: every operation below is one whole critical section.
-/

namespace Pokecache

/-- Instant on the process clock (nanoseconds). -/
abbrev Time := Int

/-- Length of time (nanoseconds), Go `time.Duration`. -/
abbrev Duration := Int

/-- Go `[]byte`; `none` is the `nil` slice. -/
abbrev Bytes := Option (List UInt8)

/-- Go `t.After(u)`: `t` is strictly later than `u`. -/
def After (t u : Time) : Bool := decide (u < t)

/-- Source: `type cacheEntry struct { createdAt time.Time; value []byte }`. -/
structure cacheEntry where
  createdAt : Time
  value : Bytes
deriving DecidableEq, Repr

/-- Go `map[string]cacheEntry`. -/
abbrev Entries := Finmap (fun _ : String => cacheEntry)

/-- Source: `type Cache struct { entries map[string]cacheEntry; mu sync.Mutex }`. -/
structure Cache where
  entries : Entries
deriving DecidableEq

/-- Source: `func (c *Cache) Add(key string, value []byte)`, with the reading of
`time.Now()` passed as `now`. An existing entry is fetched and kept; a new one is
built from `value` only when the key has none; `createdAt` is then set and the
entry stored. -/
def Add (c : Cache) (key : String) (value : Bytes) (now : Time) : Cache :=
  if key = "" then c
  else
    let entry : cacheEntry :=
      match c.entries.lookup key with
      | some e => e
      | none => { createdAt := 0, value := value }
    { entries := c.entries.insert key { entry with createdAt := now } }

/-- Outcome of one `Get` call: the two returned values, the cache after the call
and the lines handed to `log.Println`. -/
structure GetResult where
  value : Bytes
  ok : Bool
  cache : Cache
  logged : List String
deriving DecidableEq

/-- Source: `func (c *Cache) Get(key string) ([]byte, bool)`. -/
def Get (c : Cache) (key : String) : GetResult :=
  if key = "" then { value := none, ok := false, cache := c, logged := [] }
  else
    match c.entries.lookup key with
    | some entry =>
      { value := entry.value, ok := true, cache := c,
        logged := ["Getting from the cache! " ++ key] }
    | none => { value := none, ok := false, cache := c, logged := [] }

/-- One iteration of the inner `range` loop of `reapLoop` for the entry `(k, v)`:
`if now.After(v.createdAt) { delete(c.entries, k) }`. -/
def reapEntry (now : Time) (m : Entries) (k : String) (v : cacheEntry) : Entries :=
  if After now v.createdAt then m.erase k else m

/-- Body of the outer loop of `reapLoop` for one tick `now`: the inner loop visits
every entry the map held at the start of the sweep, in no particular order, and
deletes from the map as it goes. -/
def sweep (c : Cache) (now : Time) : Cache :=
  { entries :=
      Finmap.foldl (reapEntry now)
        (by
          intro d a₁ b₁ a₂ b₂
          unfold reapEntry
          split <;> split <;> first | rfl | exact Finmap.erase_erase)
        c.entries c.entries }

/-- Source: `func (c *Cache) reapLoop(dataLifespan time.Duration)`, run over the
ticks received so far from `ticker.C`. -/
def reapLoop (c : Cache) (ticks : List Time) : Cache :=
  ticks.foldl sweep c

/-- Source: `func NewCache(dataLifespan time.Duration) *Cache`; the reaper it starts
is represented by the `sweep` operations of a run. -/
def NewCache (_dataLifespan : Duration) : Cache :=
  { entries := ∅ }

/-- One whole operation on the cache, as serialized by the mutex. -/
inductive Op where
  | add (key : String) (value : Bytes) (now : Time)
  | get (key : String)
  | sweep (now : Time)
deriving DecidableEq

/-- Effect of one operation on the cache. -/
def step (c : Cache) : Op → Cache
  | .add key value now => Add c key value now
  | .get key => (Get c key).cache
  | .sweep now => sweep c now

/-- Effect of a sequence of operations, first to last. -/
def run (c : Cache) (ops : List Op) : Cache :=
  ops.foldl step c

/-- The operation is a reaper sweep. -/
def Op.isSweep : Op → Bool
  | .sweep _ => true
  | _ => false

/-- The operation is an `Add` with key `k`. -/
def Op.addsTo (k : String) : Op → Bool
  | .add key _ _ => decide (key = k)
  | _ => false

/-! ## Lookup lemmas for the three operations -/

theorem lookup_Add_self (c : Cache) (key : String) (value : Bytes) (now : Time)
    (hk : key ≠ "") :
    (Add c key value now).entries.lookup key =
      some { createdAt := now,
             value := match c.entries.lookup key with
               | some e => e.value
               | none => value } := by
  unfold Add
  rw [if_neg hk]
  simp only [Finmap.lookup_insert]
  cases c.entries.lookup key <;> rfl

theorem lookup_Add_ne (c : Cache) (key : String) (value : Bytes) (now : Time)
    (k : String) (hne : k ≠ key) :
    (Add c key value now).entries.lookup k = c.entries.lookup k := by
  unfold Add
  split
  · rfl
  · exact Finmap.lookup_insert_of_ne _ hne

theorem Add_empty_key (c : Cache) (value : Bytes) (now : Time) :
    Add c "" value now = c := by
  simp [Add]

theorem Get_cache (c : Cache) (key : String) : (Get c key).cache = c := by
  unfold Get
  split
  · rfl
  · split <;> rfl

theorem Get_of_lookup_some (c : Cache) (key : String) (e : cacheEntry)
    (hk : key ≠ "") (h : c.entries.lookup key = some e) :
    (Get c key).value = e.value ∧ (Get c key).ok = true := by
  unfold Get
  rw [if_neg hk, h]
  exact ⟨rfl, rfl⟩

theorem Get_of_lookup_none (c : Cache) (key : String)
    (h : c.entries.lookup key = none) :
    (Get c key).value = none ∧ (Get c key).ok = false := by
  unfold Get
  split
  · exact ⟨rfl, rfl⟩
  · rw [h]
    exact ⟨rfl, rfl⟩

/-- Running the inner loop of a sweep over a list of entries, erasing from `d`:
key `k` ends up absent when the list holds an entry for `k` created before `now`,
and is left as in `d` otherwise. -/
theorem lookup_foldl_reapEntry (now : Time) (k : String) :
    ∀ (l : List (Sigma fun _ : String => cacheEntry)) (d : Entries),
      (l.foldl (fun d s => reapEntry now d s.1 s.2) d).lookup k =
        if l.any (fun s => decide (s.1 = k ∧ s.2.createdAt < now)) then none
        else d.lookup k := by
  intro l
  induction l with
  | nil => intro d; simp
  | cons s l ih =>
    intro d
    obtain ⟨a, b⟩ := s
    rw [List.foldl_cons, ih, List.any_cons]
    by_cases hl : l.any (fun s => decide (s.1 = k ∧ s.2.createdAt < now)) = true
    · rw [hl, Bool.or_true, if_pos rfl, if_pos rfl]
    · by_cases hab : a = k ∧ b.createdAt < now
      · obtain ⟨rfl, hlt⟩ := hab
        simp [reapEntry, After, hlt, Finmap.lookup_erase]
      · have hp : decide (a = k ∧ b.createdAt < now) = false := decide_eq_false hab
        simp only [hl, hp, Bool.or_self, Bool.false_eq_true, if_false]
        unfold reapEntry
        split
        · rename_i hafter
          have hlt : b.createdAt < now := by simpa [After] using hafter
          have hne : k ≠ a := fun h => hab ⟨h.symm, hlt⟩
          exact Finmap.lookup_erase_ne hne
        · rfl

/-- After a sweep at `now`, the entry under each key is the one before the sweep
if its `createdAt` is not before `now`, and absent otherwise. -/
theorem lookup_sweep (c : Cache) (now : Time) (k : String) :
    (sweep c now).entries.lookup k =
      (c.entries.lookup k).filter (fun e => decide (now ≤ e.createdAt)) := by
  obtain ⟨m⟩ := c
  unfold sweep
  simp only
  induction m using Finmap.induction_on with
  | H s =>
    simp only [Finmap.foldl, AList.toFinmap_entries, Multiset.coe_foldl]
    rw [lookup_foldl_reapEntry, Finmap.lookup_toFinmap]
    cases hlk : s.lookup k with
    | none =>
      split <;> rfl
    | some e0 =>
      by_cases hlt : e0.createdAt < now
      · have hmem : Sigma.mk k e0 ∈ s.entries :=
          AList.mem_lookup_iff.mp (by rw [hlk]; rfl)
        have hany : s.entries.any (fun s => decide (s.1 = k ∧ s.2.createdAt < now)) = true :=
          List.any_eq_true.mpr ⟨⟨k, e0⟩, hmem, by simpa using hlt⟩
        rw [if_pos hany]
        simp [Option.filter, not_le.mpr hlt]
      · have hany : ¬ s.entries.any (fun s => decide (s.1 = k ∧ s.2.createdAt < now)) = true := by
          intro h
          obtain ⟨⟨a, e⟩, he, hp⟩ := List.any_eq_true.mp h
          simp only [decide_eq_true_eq] at hp
          obtain ⟨rfl, hlt2⟩ := hp
          have h2 := AList.mem_lookup_iff.mpr he
          rw [hlk] at h2
          cases h2
          exact hlt hlt2
        rw [if_neg hany]
        simp [Option.filter, not_lt.mp hlt]

/-! ## Runs of operations -/

theorem run_nil (c : Cache) : run c [] = c := rfl

theorem run_cons (c : Cache) (op : Op) (ops : List Op) :
    run c (op :: ops) = run (step c op) ops := rfl

/-- An operation that is not an `Add` to `k` leaves the entry under `k` as it was
or removes it. -/
theorem lookup_step_of_not_addsTo (c : Cache) (k : String) (op : Op)
    (h : op.addsTo k = false) :
    (step c op).entries.lookup k = none ∨
      (step c op).entries.lookup k = c.entries.lookup k := by
  cases op with
  | add key value now =>
    have hne : k ≠ key := by
      intro heq
      simp [Op.addsTo, heq] at h
    exact Or.inr (lookup_Add_ne c key value now k hne)
  | get key => exact Or.inr (by simp [step, Get_cache])
  | sweep now =>
    simp only [step]
    rw [lookup_sweep]
    cases c.entries.lookup k with
    | none => exact Or.inl rfl
    | some e =>
      by_cases hle : now ≤ e.createdAt
      · exact Or.inr (by simp [Option.filter, hle])
      · exact Or.inl (by simp [Option.filter, hle])

/-- A run without an `Add` to `k` leaves the entry under `k` as it was or removes it. -/
theorem lookup_run_of_not_addsTo (k : String) :
    ∀ (ops : List Op) (c : Cache), (∀ op ∈ ops, op.addsTo k = false) →
      (run c ops).entries.lookup k = none ∨
        (run c ops).entries.lookup k = c.entries.lookup k := by
  intro ops
  induction ops with
  | nil => intro c _; exact Or.inr rfl
  | cons op ops ih =>
    intro c h
    rw [run_cons]
    have hop := lookup_step_of_not_addsTo c k op (h op (List.mem_cons_self _ _))
    have hrest := ih (step c op) (fun o ho => h o (List.mem_cons_of_mem _ ho))
    rcases hrest with h1 | h1
    · exact Or.inl h1
    · rcases hop with h2 | h2
      · exact Or.inl (h1.trans h2)
      · exact Or.inr (h1.trans h2)

/-- An operation that is not a sweep keeps every key that has an entry. -/
theorem lookup_step_isSome_of_not_sweep (c : Cache) (k : String) (op : Op)
    (h : op.isSweep = false) (hk : (c.entries.lookup k).isSome = true) :
    ((step c op).entries.lookup k).isSome = true := by
  cases op with
  | add key value now =>
    simp only [step]
    by_cases hkey : key = ""
    · subst hkey
      rw [Add_empty_key]
      exact hk
    · by_cases hne : k = key
      · subst hne
        rw [lookup_Add_self c k value now hkey]
        rfl
      · rw [lookup_Add_ne c key value now k hne]
        exact hk
  | get key => simpa [step, Get_cache] using hk
  | sweep now => simp [Op.isSweep] at h

/-- A run without a sweep keeps every key that has an entry. -/
theorem lookup_run_isSome_of_not_sweep (k : String) :
    ∀ (ops : List Op) (c : Cache), (∀ op ∈ ops, op.isSweep = false) →
      (c.entries.lookup k).isSome = true →
      ((run c ops).entries.lookup k).isSome = true := by
  intro ops
  induction ops with
  | nil => intro c _ hk; exact hk
  | cons op ops ih =>
    intro c h hk
    rw [run_cons]
    exact ih (step c op) (fun o ho => h o (List.mem_cons_of_mem _ ho))
      (lookup_step_isSome_of_not_sweep c k op (h op (List.mem_cons_self _ _)) hk)

/-- No operation stores an entry under the empty key. -/
theorem lookup_step_empty_key (c : Cache) (op : Op)
    (h : c.entries.lookup "" = none) : (step c op).entries.lookup "" = none := by
  cases op with
  | add key value now =>
    simp only [step]
    by_cases hkey : key = ""
    · subst hkey
      rw [Add_empty_key]
      exact h
    · rw [lookup_Add_ne c key value now "" (fun heq => hkey heq.symm)]
      exact h
  | get key => simpa [step, Get_cache] using h
  | sweep now =>
    simp only [step]
    rw [lookup_sweep, h]
    rfl

theorem lookup_run_empty_key :
    ∀ (ops : List Op) (c : Cache), c.entries.lookup "" = none →
      (run c ops).entries.lookup "" = none := by
  intro ops
  induction ops with
  | nil => intro c h; exact h
  | cons op ops ih =>
    intro c h
    rw [run_cons]
    exact ih (step c op) (lookup_step_empty_key c op h)

/-! ## C1: a second `Add` on the same key -/

/-- C1, counterexample: on a fresh cache `Add("k", "a")` at time 0, then
`Add("k", "b")` at time 1, then `Get("k")` returns `("a", true)`; the value of the
second `Add` is not the one returned. -/
theorem Add_twice_Get_returns_first :
    (Get (Add (Add (NewCache 50) "k" (some [97]) 0) "k" (some [98]) 1) "k").value
        = some [97] ∧
      (Get (Add (Add (NewCache 50) "k" (some [97]) 0) "k" (some [98]) 1) "k").ok = true ∧
      (Get (Add (Add (NewCache 50) "k" (some [97]) 0) "k" (some [98]) 1) "k").value
        ≠ some [98] := by
  decide

/-- C1, amended: for every cache state, every non-empty key `k` and all values
`v1`, `v2`, after `Add(k, v1)` then `Add(k, v2)` a `Get(k)` is a hit whose value is
the one stored under `k` after the first `Add`: the value `k` already had, or `v1`
when `k` had no entry. The second `Add` keeps the stored value. -/
theorem Add_twice_Get (c : Cache) (k : String) (v1 v2 : Bytes) (t1 t2 : Time)
    (hk : k ≠ "") :
    (Get (Add (Add c k v1 t1) k v2 t2) k).ok = true ∧
      (Get (Add (Add c k v1 t1) k v2 t2) k).value = (Get (Add c k v1 t1) k).value ∧
      (Get (Add (Add c k v1 t1) k v2 t2) k).value =
        (Option.map cacheEntry.value (c.entries.lookup k)).getD v1 := by
  have h1 := lookup_Add_self c k v1 t1 hk
  have h2 := lookup_Add_self (Add c k v1 t1) k v2 t2 hk
  rw [h1] at h2
  have g1 := Get_of_lookup_some _ k _ hk h1
  have g2 := Get_of_lookup_some _ k _ hk h2
  refine ⟨g2.2, ?_, ?_⟩
  · rw [g2.1, g1.1]
  · rw [g2.1]
    cases c.entries.lookup k <;> rfl

/-- C1, amended, on a cache that already holds `"k" ↦ "a"`: two further `Add`s
with `"b"` and `"c"` leave `"a"` as the value returned. -/
theorem Add_twice_Get_witness :
    "k" ≠ "" ∧
      (Get (Add (Add (Add (NewCache 50) "k" (some [97]) 0) "k" (some [98]) 1)
        "k" (some [99]) 2) "k").value =
        (Option.map cacheEntry.value
          ((Add (NewCache 50) "k" (some [97]) 0).entries.lookup "k")).getD (some [98]) :=
  ⟨by decide,
   (Add_twice_Get (Add (NewCache 50) "k" (some [97]) 0) "k" (some [98]) (some [99]) 1 2
      (by decide)).2.2⟩

/-! ## C2: read after write -/

/-- C2, counterexample: on the cache that holds `"k" ↦ "a"`, `Add("k", "b")`
followed by `Get("k")` returns `("a", true)`, not `("b", true)`. -/
theorem Add_Get_existing_key_returns_old :
    (Add (NewCache 50) "k" (some [97]) 0).entries.lookup "k"
        = some { createdAt := 0, value := some [97] } ∧
      (Get (Add (Add (NewCache 50) "k" (some [97]) 0) "k" (some [98]) 7) "k").value
        = some [97] ∧
      (Get (Add (Add (NewCache 50) "k" (some [97]) 0) "k" (some [98]) 7) "k").ok = true ∧
      ¬ ((Get (Add (Add (NewCache 50) "k" (some [97]) 0) "k" (some [98]) 7) "k").value
          = some [98] ∧
        (Get (Add (Add (NewCache 50) "k" (some [97]) 0) "k" (some [98]) 7) "k").ok
          = true) := by
  decide

/-- C2, amended: for every cache state, every non-empty key `k` and every value
`v`, `Add(k, v)` followed immediately by `Get(k)` is a hit; the value returned is `v`
when `k` had no entry before the `Add`, and the value already stored under `k` when
it had one. -/
theorem Add_Get (c : Cache) (k : String) (v : Bytes) (t : Time) (hk : k ≠ "") :
    (Get (Add c k v t) k).ok = true ∧
      (Get (Add c k v t) k).value =
        (Option.map cacheEntry.value (c.entries.lookup k)).getD v := by
  have h1 := lookup_Add_self c k v t hk
  have g1 := Get_of_lookup_some _ k _ hk h1
  refine ⟨g1.2, ?_⟩
  rw [g1.1]
  cases c.entries.lookup k <;> rfl

/-- C2, amended, on a fresh cache: `Add("x", "a")` then `Get("x")` returns
`("a", true)`. -/
theorem Add_Get_witness :
    "x" ≠ "" ∧
      ((Get (Add (NewCache 50) "x" (some [97]) 3) "x").ok = true ∧
        (Get (Add (NewCache 50) "x" (some [97]) 3) "x").value =
          (Option.map cacheEntry.value ((NewCache 50).entries.lookup "x")).getD
            (some [97])) :=
  ⟨by decide, Add_Get (NewCache 50) "x" (some [97]) 3 (by decide)⟩

/-! ## C6: `Add` stamps the entry with the current time -/

/-- C6: for every cache state, non-empty key `k` and value `v`, after `Add(k, v)`
executed at time `t` the key `k` has an entry and its `createdAt` is `t`, whether
or not `k` had an entry before and whatever its previous `createdAt`. -/
theorem Add_sets_createdAt (c : Cache) (k : String) (v : Bytes) (t : Time)
    (hk : k ≠ "") :
    ∃ e, (Add c k v t).entries.lookup k = some e ∧ e.createdAt = t :=
  ⟨_, lookup_Add_self c k v t hk, rfl⟩

/-- C6 on a cache holding `"k"` with `createdAt = 0`: a second `Add` at time 9
leaves an entry with `createdAt = 9`. -/
theorem Add_sets_createdAt_witness :
    "k" ≠ "" ∧
      ∃ e, (Add (Add (NewCache 50) "k" (some [97]) 0) "k" (some [98]) 9).entries.lookup "k"
        = some e ∧ e.createdAt = 9 :=
  ⟨by decide,
   Add_sets_createdAt (Add (NewCache 50) "k" (some [97]) 0) "k" (some [98]) 9 (by decide)⟩

/-! ## C7: `Get` does not write -/

/-- C7: for every cache state and every key (empty, present or absent), the cache
after `Get(key)` is the cache before it: the entry map is the same, so the entry
under every key has the same presence, value and `createdAt`. A hit differs from a
miss only in the returned pair and in the line it logs. -/
theorem Get_read_only (c : Cache) (key : String) :
    (Get c key).cache = c ∧
      (Get c key).cache.entries = c.entries ∧
      ∀ k, (Get c key).cache.entries.lookup k = c.entries.lookup k := by
  have h := Get_cache c key
  refine ⟨h, ?_, ?_⟩
  · rw [h]
  · intro k
    rw [h]

/-! ## C8: misses and hits of `Get` -/

/-- C8: for every cache state, `Get("")` returns `(nil, false)`; `Get(k)` returns
`(nil, false)` for every key `k` without an entry, in particular for every key on a
freshly constructed cache; and `Get(k)` reports `found = true` only when `k` is
non-empty and has an entry, whose stored value it then returns. -/
theorem Get_miss_hit (c : Cache) (k : String) :
    ((Get c "").value = none ∧ (Get c "").ok = false) ∧
      (c.entries.lookup k = none → (Get c k).value = none ∧ (Get c k).ok = false) ∧
      (∀ d : Duration, (Get (NewCache d) k).value = none ∧ (Get (NewCache d) k).ok = false) ∧
      ((Get c k).ok = true →
        k ≠ "" ∧ ∃ e, c.entries.lookup k = some e ∧ (Get c k).value = e.value) := by
  refine ⟨⟨by simp [Get], by simp [Get]⟩, Get_of_lookup_none c k, ?_, ?_⟩
  · intro d
    exact Get_of_lookup_none (NewCache d) k (Finmap.lookup_empty k)
  · intro hok
    by_cases hk : k = ""
    · subst hk
      simp [Get] at hok
    · refine ⟨hk, ?_⟩
      cases hl : c.entries.lookup k with
      | none =>
        have := (Get_of_lookup_none c k hl).2
        rw [this] at hok
        cases hok
      | some e => exact ⟨e, rfl, (Get_of_lookup_some c k e hk hl).1⟩

/-- C8 at concrete inputs: a key absent from a one-entry cache misses, and the hit
on the key it holds comes with a non-empty key and that entry. -/
theorem Get_miss_hit_witness :
    ((Add (NewCache 50) "x" (some [97]) 0).entries.lookup "missing" = none ∧
      ((Get (Add (NewCache 50) "x" (some [97]) 0) "missing").value = none ∧
        (Get (Add (NewCache 50) "x" (some [97]) 0) "missing").ok = false)) ∧
    ((Get (Add (NewCache 50) "x" (some [97]) 0) "x").ok = true ∧
      ("x" ≠ "" ∧ ∃ e, (Add (NewCache 50) "x" (some [97]) 0).entries.lookup "x" = some e ∧
        (Get (Add (NewCache 50) "x" (some [97]) 0) "x").value = e.value)) :=
  ⟨⟨by decide,
    (Get_miss_hit (Add (NewCache 50) "x" (some [97]) 0) "missing").2.1 (by decide)⟩,
   ⟨by decide,
    (Get_miss_hit (Add (NewCache 50) "x" (some [97]) 0) "x").2.2.2 (by decide)⟩⟩

/-! ## C3: one reaper sweep -/

/-- C3: one reaper sweep at wake-up time `now` turns the entry map into exactly
the sub-map of the entries whose `createdAt` is not before `now`: an entry with
`createdAt < now` is removed, that is every entry of age greater than zero,
whatever lifespan the cache was configured with; an entry with `now ≤ createdAt`
is kept with its value and `createdAt`; a key without an entry gets none. The
reaper runs this sweep once for each tick it receives. -/
theorem sweep_keeps_exactly_not_before (c : Cache) (now : Time) :
    (∀ k, (sweep c now).entries.lookup k =
        (c.entries.lookup k).filter (fun e => decide (now ≤ e.createdAt))) ∧
      (∀ k e, c.entries.lookup k = some e → e.createdAt < now →
        (sweep c now).entries.lookup k = none) ∧
      (∀ k e (age : Duration), c.entries.lookup k = some e → 0 < age →
        e.createdAt = now - age → (sweep c now).entries.lookup k = none) ∧
      (∀ k e, c.entries.lookup k = some e → now ≤ e.createdAt →
        (sweep c now).entries.lookup k = some e) ∧
      (∀ k, c.entries.lookup k = none → (sweep c now).entries.lookup k = none) ∧
      (∀ ticks : List Time, reapLoop c (ticks ++ [now]) = sweep (reapLoop c ticks) now) := by
  have hold : ∀ k e, c.entries.lookup k = some e → e.createdAt < now →
      (sweep c now).entries.lookup k = none := by
    intro k e he hlt
    rw [lookup_sweep, he]
    simp [Option.filter, not_le.mpr hlt]
  refine ⟨lookup_sweep c now, hold, ?_, ?_, ?_, ?_⟩
  · intro k e age he hage hcreated
    exact hold k e he (by rw [hcreated]; exact Int.sub_lt_self now hage)
  · intro k e he hle
    rw [lookup_sweep, he]
    simp [Option.filter, hle]
  · intro k he
    rw [lookup_sweep, he]
    rfl
  · intro ticks
    simp [reapLoop, List.foldl_append]

/-- C3 on the cache built with lifespan 50 that holds `"old"` created at 49 and
`"new"` created at 50: the sweep at 50 removes `"old"`, of age 1, and keeps `"new"`. -/
theorem sweep_keeps_exactly_not_before_witness :
    ((Add (Add (NewCache 50) "old" (some [97]) 49) "new" (some [98]) 50).entries.lookup "old"
        = some { createdAt := 49, value := some [97] } ∧
      (0 : Duration) < 1 ∧ (49 : Time) = 50 - 1 ∧
      (sweep (Add (Add (NewCache 50) "old" (some [97]) 49) "new" (some [98]) 50)
        50).entries.lookup "old" = none) ∧
    ((Add (Add (NewCache 50) "old" (some [97]) 49) "new" (some [98]) 50).entries.lookup "new"
        = some { createdAt := 50, value := some [98] } ∧
      (50 : Time) ≤ 50 ∧
      (sweep (Add (Add (NewCache 50) "old" (some [97]) 49) "new" (some [98]) 50)
        50).entries.lookup "new" = some { createdAt := 50, value := some [98] }) :=
  ⟨⟨by decide, by decide, by decide,
    (sweep_keeps_exactly_not_before
      (Add (Add (NewCache 50) "old" (some [97]) 49) "new" (some [98]) 50) 50).2.2.1
      "old" { createdAt := 49, value := some [97] } 1 (by decide) (by decide) (by decide)⟩,
   ⟨by decide, by decide,
    (sweep_keeps_exactly_not_before
      (Add (Add (NewCache 50) "old" (some [97]) 49) "new" (some [98]) 50) 50).2.2.2.1
      "new" { createdAt := 50, value := some [98] } (by decide) (by decide)⟩⟩

/-! ## C4: an entry does not survive the second sweep after its `Add` -/

/-- C4: for every cache state, non-empty key `k`, value `v` and times
`t ≤ s1 < s2`: after `Add(k, v)` at time `t`, a sweep at `s1` and a sweep at `s2`,
with any operations other than an `Add` to `k` interleaved before, between and
after the two sweeps, `Get(k)` returns `(nil, false)`. -/
theorem expiry_upper_bound (c : Cache) (k : String) (v : Bytes) (t s1 s2 : Time)
    (ops1 ops2 ops3 : List Op) (hk : k ≠ "") (h1 : t ≤ s1) (h2 : s1 < s2)
    (hno1 : ∀ op ∈ ops1, op.addsTo k = false)
    (hno2 : ∀ op ∈ ops2, op.addsTo k = false)
    (hno3 : ∀ op ∈ ops3, op.addsTo k = false) :
    (Get (run (sweep (run (sweep (run (Add c k v t) ops1) s1) ops2) s2) ops3) k).value
        = none ∧
      (Get (run (sweep (run (sweep (run (Add c k v t) ops1) s1) ops2) s2) ops3) k).ok
        = false := by
  apply Get_of_lookup_none
  have keep : ∀ (a b : Cache),
      (b.entries.lookup k = none ∨ b.entries.lookup k = a.entries.lookup k) →
      (∀ e, a.entries.lookup k = some e → e.createdAt = t) →
      ∀ e, b.entries.lookup k = some e → e.createdAt = t := by
    intro a b hab ha e he
    rcases hab with h | h
    · rw [h] at he
      cases he
    · exact ha e (h ▸ he)
  have h0 : ∀ e, (Add c k v t).entries.lookup k = some e → e.createdAt = t := by
    intro e he
    rw [lookup_Add_self c k v t hk] at he
    cases he
    rfl
  have hA := keep _ _ (lookup_run_of_not_addsTo k ops1 (Add c k v t) hno1) h0
  have hB := keep _ _
    (lookup_step_of_not_addsTo (run (Add c k v t) ops1) k (Op.sweep s1) rfl) hA
  simp only [step] at hB
  have hC := keep _ _
    (lookup_run_of_not_addsTo k ops2 (sweep (run (Add c k v t) ops1) s1) hno2) hB
  have hD : (sweep (run (sweep (run (Add c k v t) ops1) s1) ops2) s2).entries.lookup k
      = none := by
    rw [lookup_sweep]
    cases hl : (run (sweep (run (Add c k v t) ops1) s1) ops2).entries.lookup k with
    | none => rfl
    | some e =>
      have hlt : ¬ s2 ≤ e.createdAt := by
        rw [hC e hl]
        exact not_le.mpr (lt_of_le_of_lt h1 h2)
      simp [Option.filter, hlt]
  rcases lookup_run_of_not_addsTo k ops3 _ hno3 with h | h
  · exact h
  · exact h.trans hD

/-- C4, the scenario with lifespan 50 (times in milliseconds): `Add("x", "a")` at 0
on the fresh cache, `Get("x")` at 10 returns `("a", true)`, the reaper sweeps at 50
and at 100, and `Get("x")` afterwards returns `(nil, false)`. -/
theorem expiry_upper_bound_witness :
    ("x" ≠ "" ∧ (0 : Time) ≤ 50 ∧ (50 : Time) < 100) ∧
      ((Get (Add (NewCache 50) "x" (some [97]) 0) "x").value = some [97] ∧
        (Get (Add (NewCache 50) "x" (some [97]) 0) "x").ok = true) ∧
      ((Get (run (sweep (run (sweep (run (Add (NewCache 50) "x" (some [97]) 0)
          [Op.get "x"]) 50) []) 100) []) "x").value = none ∧
        (Get (run (sweep (run (sweep (run (Add (NewCache 50) "x" (some [97]) 0)
          [Op.get "x"]) 50) []) 100) []) "x").ok = false) :=
  ⟨⟨by decide, by decide, by decide⟩, by decide,
   expiry_upper_bound (NewCache 50) "x" (some [97]) 0 50 100 [Op.get "x"] [] []
     (by decide) (by decide) (by decide) (by decide) (by decide) (by decide)⟩

/-! ## C5: only a sweep removes an entry -/

/-- C5: for every cache state, non-empty key `k` and value `v`, after `Add(k, v)`
every finite sequence of `Add` and `Get` operations on arbitrary keys that contains
no sweep leaves `k` present: `Get(k)` is a hit after the whole sequence and after
each of its prefixes, that is at every point before the next sweep. -/
theorem expiry_lower_bound (c : Cache) (k : String) (v : Bytes) (t : Time)
    (ops : List Op) (hk : k ≠ "") (hns : ∀ op ∈ ops, op.isSweep = false) :
    ∀ pre : List Op, pre <+: ops → (Get (run (Add c k v t) pre) k).ok = true := by
  intro pre hpre
  have hsome : ((run (Add c k v t) pre).entries.lookup k).isSome = true := by
    apply lookup_run_isSome_of_not_sweep k pre (Add c k v t)
    · intro op hop
      exact hns op (hpre.subset hop)
    · rw [lookup_Add_self c k v t hk]
      rfl
  obtain ⟨e, he⟩ := Option.isSome_iff_exists.mp hsome
  exact (Get_of_lookup_some _ k e hk he).2

/-- C5 on a fresh cache: after `Add("x", "a")`, the run `Get("x")`, `Add("y", "b")`,
`Add("x", "c")`, `Add("", "d")`, `Get("y")` still ends with a hit on `"x"`. -/
theorem expiry_lower_bound_witness :
    ("x" ≠ "" ∧
      ∀ op ∈ [Op.get "x", Op.add "y" (some [98]) 1, Op.add "x" (some [99]) 2,
        Op.add "" (some [100]) 3, Op.get "y"], op.isSweep = false) ∧
      (Get (run (Add (NewCache 50) "x" (some [97]) 0)
        [Op.get "x", Op.add "y" (some [98]) 1, Op.add "x" (some [99]) 2,
          Op.add "" (some [100]) 3, Op.get "y"]) "x").ok = true :=
  ⟨⟨by decide, by decide⟩,
   expiry_lower_bound (NewCache 50) "x" (some [97]) 0
     [Op.get "x", Op.add "y" (some [98]) 1, Op.add "x" (some [99]) 2,
       Op.add "" (some [100]) 3, Op.get "y"]
     (by decide) (by decide) _ (List.prefix_refl _)⟩

/-! ## C9: what `Add` leaves alone -/

/-- C9: for every cache state, key `k` and value `v`, `Add(k, v)` leaves the entry
under every other key as it was (same presence, value and `createdAt`); with the
empty key it leaves the whole cache unchanged; and no state reached from a fresh
cache by `Add`, `Get` and sweep operations holds an entry under the empty key. -/
theorem Add_frame (c : Cache) (k : String) (v : Bytes) (t : Time) :
    (∀ k2, k2 ≠ k → (Add c k v t).entries.lookup k2 = c.entries.lookup k2) ∧
      Add c "" v t = c ∧
      (∀ (d : Duration) (ops : List Op), (run (NewCache d) ops).entries.lookup "" = none) := by
  refine ⟨fun k2 hne => lookup_Add_ne c k v t k2 hne, Add_empty_key c v t, ?_⟩
  intro d ops
  exact lookup_run_empty_key ops (NewCache d) (Finmap.lookup_empty "")

/-- C9 on the cache holding `"y"`: `Add("x", "a")` leaves the entry under `"y"`. -/
theorem Add_frame_witness :
    "y" ≠ "x" ∧
      (Add (Add (NewCache 50) "y" (some [98]) 1) "x" (some [97]) 2).entries.lookup "y" =
        (Add (NewCache 50) "y" (some [98]) 1).entries.lookup "y" :=
  ⟨by decide,
   (Add_frame (Add (NewCache 50) "y" (some [98]) 1) "x" (some [97]) 2).1 "y" (by decide)⟩

end Pokecache
